import Mathlib

/-!
Verification of the CybersecurityNewsApp repository: a shallow embedding of
`src/parser.py`, `src/formatter.py` and `src/feed_fetcher.py` in Lean 4,
together with theorems settling the specification's claims.

Strings are modelled as Lean `String` (lists of characters); Python's
whitespace class `\s` and `str.strip()` are modelled over the six ASCII
whitespace characters.  The external `dateutil` date parser and the
`datetime` type are modelled abstractly: the embedding is parameterised by
an arbitrary parsing function that either returns a timestamp or raises one
of the error classes dateutil documents: `ParserError` (a `ValueError`),
`TypeError`, or `OverflowError` for dates exceeding the largest valid C
integer.  The `except (ValueError, TypeError)` clauses in the source catch
only the first two classes, so the full model (`PyExc`, `parse_date_exc`)
propagates an `OverflowError`; the restricted model (`PyErr`,
`parse_date`), used inside `parse_rss_feed`, covers the runs in which the
external parser raises only caught classes, and `parse_date_exc_lift`
proves the two agree on those runs.
-/

/-- Python whitespace class `\s` restricted to ASCII:
space, tab, newline, carriage return, vertical tab, form feed. -/
def isWs (c : Char) : Bool :=
  c = ' ' || c = '\t' || c = '\n' || c = '\r' || c = '\x0b' || c = '\x0c'

/-- Model of Python `str.strip()` on a list of characters: drop leading and
trailing whitespace. -/
def stripWs (s : List Char) : List Char :=
  ((s.dropWhile isWs).reverse.dropWhile isWs).reverse

/-- Model of `re.sub(r"\s+", " ", text)`: every maximal run of whitespace
characters is replaced by a single space. -/
def collapseWs : List Char → List Char
  | [] => []
  | [c] => if isWs c then [' '] else [c]
  | a :: b :: rest =>
    if isWs a && isWs b then collapseWs (b :: rest)
    else (if isWs a then ' ' else a) :: collapseWs (b :: rest)

/-- Scan forward to the first `>` and return the remainder after it
(the tail of a tag match), or `none` when no `>` occurs. -/
def skipToGt : List Char → Option (List Char)
  | [] => none
  | c :: rest => if c = '>' then some rest else skipToGt rest

/-- Given the characters following a `<`, try to complete a match of the
regex `<[^>]+>`: at least one character other than `>` must precede the
closing `>`.  Returns the remainder after the match. -/
def dropTag (cs : List Char) : Option (List Char) :=
  match cs with
  | [] => none
  | c :: rest => if c = '>' then none else skipToGt rest

theorem skipToGt_length : ∀ {cs rest : List Char}, skipToGt cs = some rest →
    rest.length < cs.length := by
  intro cs
  induction cs with
  | nil => intro rest h; simp [skipToGt] at h
  | cons c cs ih =>
    intro rest h
    simp only [skipToGt] at h
    by_cases hc : c = '>'
    · simp [hc] at h; simp [← h]
    · simp [hc] at h
      exact Nat.lt_succ_of_lt (ih h)

theorem dropTag_length {cs rest : List Char} (h : dropTag cs = some rest) :
    rest.length < cs.length := by
  match cs with
  | [] => simp [dropTag] at h
  | c :: cs' =>
    simp only [dropTag] at h
    by_cases hc : c = '>'
    · simp [hc] at h
    · simp [hc] at h
      exact Nat.lt_succ_of_lt (skipToGt_length h)

/-- Fuelled worker for `removeTags`; the fuel is an upper bound on the
input length, so the out-of-fuel branch is never reached. -/
def removeTagsF : Nat → List Char → List Char
  | _, [] => []
  | 0, s => s
  | fuel + 1, c :: rest =>
    if c = '<' then
      match dropTag rest with
      | some rest2 => removeTagsF fuel rest2
      | none => c :: removeTagsF fuel rest
    else c :: removeTagsF fuel rest

/-- Model of `re.sub(r"<[^>]+>", "", text)`: repeatedly delete the leftmost
match of the tag pattern. -/
def removeTags (s : List Char) : List Char :=
  removeTagsF s.length s

theorem removeTagsF_irrel (n : Nat) : ∀ (s : List Char), s.length ≤ n →
    ∀ f₁ f₂ : Nat, s.length ≤ f₁ → s.length ≤ f₂ →
    removeTagsF f₁ s = removeTagsF f₂ s := by
  induction n using Nat.strong_induction_on with
  | _ n ih =>
    intro s hs f₁ f₂ h₁ h₂
    match s with
    | [] => cases f₁ <;> cases f₂ <;> rfl
    | c :: rest =>
      match f₁, f₂ with
      | 0, _ => exact absurd h₁ (by simp)
      | _ + 1, 0 => exact absurd h₂ (by simp)
      | g₁ + 1, g₂ + 1 =>
        simp only [List.length_cons] at hs h₁ h₂
        simp only [removeTagsF]
        by_cases hc : c = '<'
        · simp only [hc, if_true]
          cases hd : dropTag rest with
          | some rest2 =>
            have hl := dropTag_length hd
            exact ih rest2.length (by omega) rest2 (le_refl _) g₁ g₂
              (by omega) (by omega)
          | none =>
            have := ih rest.length (by omega) rest (le_refl _) g₁ g₂
              (by omega) (by omega)
            rw [this]
        · simp only [hc, if_false]
          have := ih rest.length (by omega) rest (le_refl _) g₁ g₂
            (by omega) (by omega)
          rw [this]

theorem removeTagsF_fuel_irrel {f₁ f₂ : Nat} {s : List Char}
    (h₁ : s.length ≤ f₁) (h₂ : s.length ≤ f₂) :
    removeTagsF f₁ s = removeTagsF f₂ s :=
  removeTagsF_irrel s.length s (le_refl _) f₁ f₂ h₁ h₂

theorem removeTags_nil : removeTags [] = [] := rfl

theorem removeTags_cons_match {c : Char} {rest rest2 : List Char}
    (hc : c = '<') (hd : dropTag rest = some rest2) :
    removeTags (c :: rest) = removeTags rest2 := by
  have hl := dropTag_length hd
  simp only [removeTags, List.length_cons, removeTagsF, hc, if_true, hd]
  exact removeTagsF_fuel_irrel (by omega) (le_refl _)

theorem removeTags_cons_nomatch {c : Char} {rest : List Char}
    (h : ¬(c = '<' ∧ (dropTag rest).isSome)) :
    removeTags (c :: rest) = c :: removeTags rest := by
  simp only [removeTags, List.length_cons, removeTagsF]
  by_cases hc : c = '<'
  · simp only [hc, if_true]
    cases hd : dropTag rest with
    | some rest2 => exact absurd ⟨hc, by rw [hd]; rfl⟩ h
    | none => rfl
  · simp only [hc, if_false]

/-- Recognise a leading HTML character-entity reference (the standard XML
entities, with and without the closing semicolon as in Python's
`html.unescape`), returning the decoded character and the remainder. -/
def matchEntity (cs : List Char) : Option (Char × List Char) :=
  if cs.take 4 = ['a', 'm', 'p', ';'] then some ('&', cs.drop 4)
  else if cs.take 3 = ['a', 'm', 'p'] then some ('&', cs.drop 3)
  else if cs.take 3 = ['l', 't', ';'] then some ('<', cs.drop 3)
  else if cs.take 2 = ['l', 't'] then some ('<', cs.drop 2)
  else if cs.take 3 = ['g', 't', ';'] then some ('>', cs.drop 3)
  else if cs.take 2 = ['g', 't'] then some ('>', cs.drop 2)
  else if cs.take 5 = ['q', 'u', 'o', 't', ';'] then some ('"', cs.drop 5)
  else if cs.take 4 = ['q', 'u', 'o', 't'] then some ('"', cs.drop 4)
  else if cs.take 5 = ['a', 'p', 'o', 's', ';'] then some ('\'', cs.drop 5)
  else if cs.take 4 = ['#', '3', '9', ';'] then some ('\'', cs.drop 4)
  else none

theorem matchEntity_length {cs : List Char} {d : Char} {rest : List Char}
    (h : matchEntity cs = some (d, rest)) : rest.length ≤ cs.length := by
  simp only [matchEntity] at h
  repeat' split at h
  all_goals first
    | (rcases h with ⟨-, rfl⟩; simp [List.length_drop])
    | simp at h

/-- Fuelled worker for `unescape`; the fuel is an upper bound on the input
length, so the out-of-fuel branch is never reached. -/
def unescapeF : Nat → List Char → List Char
  | _, [] => []
  | 0, s => s
  | fuel + 1, c :: rest =>
    if c = '&' then
      match matchEntity rest with
      | some (d, rest2) => d :: unescapeF fuel rest2
      | none => c :: unescapeF fuel rest
    else c :: unescapeF fuel rest

/-- Model of Python `html.unescape`: scan for `&` and decode entity
references; replacements are not rescanned. -/
def unescape (s : List Char) : List Char :=
  unescapeF s.length s

theorem unescapeF_irrel (n : Nat) : ∀ (s : List Char), s.length ≤ n →
    ∀ f₁ f₂ : Nat, s.length ≤ f₁ → s.length ≤ f₂ →
    unescapeF f₁ s = unescapeF f₂ s := by
  induction n using Nat.strong_induction_on with
  | _ n ih =>
    intro s hs f₁ f₂ h₁ h₂
    match s with
    | [] => cases f₁ <;> cases f₂ <;> rfl
    | c :: rest =>
      match f₁, f₂ with
      | 0, _ => exact absurd h₁ (by simp)
      | _ + 1, 0 => exact absurd h₂ (by simp)
      | g₁ + 1, g₂ + 1 =>
        simp only [List.length_cons] at hs h₁ h₂
        simp only [unescapeF]
        by_cases hc : c = '&'
        · simp only [hc, if_true]
          cases hd : matchEntity rest with
          | some p =>
            obtain ⟨d, rest2⟩ := p
            have hl := matchEntity_length hd
            have := ih rest2.length (by omega) rest2 (le_refl _) g₁ g₂
              (by omega) (by omega)
            show d :: unescapeF g₁ rest2 = d :: unescapeF g₂ rest2
            rw [this]
          | none =>
            have := ih rest.length (by omega) rest (le_refl _) g₁ g₂
              (by omega) (by omega)
            rw [this]
        · simp only [hc, if_false]
          have := ih rest.length (by omega) rest (le_refl _) g₁ g₂
            (by omega) (by omega)
          rw [this]

theorem unescapeF_fuel_irrel {f₁ f₂ : Nat} {s : List Char}
    (h₁ : s.length ≤ f₁) (h₂ : s.length ≤ f₂) :
    unescapeF f₁ s = unescapeF f₂ s :=
  unescapeF_irrel s.length s (le_refl _) f₁ f₂ h₁ h₂

theorem unescape_nil : unescape [] = [] := rfl

theorem unescape_cons_match {c d : Char} {rest rest2 : List Char}
    (hc : c = '&') (hd : matchEntity rest = some (d, rest2)) :
    unescape (c :: rest) = d :: unescape rest2 := by
  have hl := matchEntity_length hd
  simp only [unescape, List.length_cons, unescapeF, hc, if_true, hd]
  congr 1
  exact unescapeF_fuel_irrel (by omega) (le_refl _)

theorem unescape_cons_nomatch {c : Char} {rest : List Char}
    (h : ¬(c = '&' ∧ (matchEntity rest).isSome)) :
    unescape (c :: rest) = c :: unescape rest := by
  simp only [unescape, List.length_cons, unescapeF]
  by_cases hc : c = '&'
  · simp only [hc, if_true]
    cases hd : matchEntity rest with
    | some p => exact absurd ⟨hc, by rw [hd]; rfl⟩ h
    | none => rfl
  · simp only [hc, if_false]

/-- Model of `formatter._clean_html`: remove tag-like substrings, decode
entities, collapse whitespace runs to single spaces, then strip. -/
def clean_html (text : String) : String :=
  ⟨stripWs (collapseWs (unescape (removeTags text.data)))⟩

/-- Model of an `xml.etree.ElementTree.Element`: tag name, optional text,
optional tail text (text following the closing tag inside the parent), and
the list of child elements in document order.  Attributes are not modelled;
the program never reads them. -/
inductive Element where
  | mk (tag : String) (text : Option String) (tail : Option String)
       (children : List Element)

def Element.tag : Element → String
  | .mk t _ _ _ => t

def Element.text : Element → Option String
  | .mk _ t _ _ => t

def Element.tail : Element → Option String
  | .mk _ _ t _ => t

def Element.children : Element → List Element
  | .mk _ _ _ c => c

/-- Model of `Element.find(tag)`: the first direct child with the given
tag, if any. -/
def Element.find (e : Element) (t : String) : Option Element :=
  e.children.find? (fun c => c.tag == t)

/-- Model of `Element.findall(tag)`: all direct children with the given
tag, in document order. -/
def Element.findall (e : Element) (t : String) : List Element :=
  e.children.filter (fun c => c.tag == t)

mutual
/-- Model of `"".join(element.itertext())`: the element's text followed by,
for each child in order, the child's own itertext and then its tail. -/
def Element.itertext : Element → String
  | .mk _ text _ children => text.getD "" ++ itertextList children

def itertextList : List Element → String
  | [] => ""
  | c :: rest => Element.itertext c ++ c.tail.getD "" ++ itertextList rest
end

/-- Model of Python `str.strip()` on `String`. -/
def pyStrip (s : String) : String := ⟨stripWs s.data⟩

/-- Model of `parser._extract_text`: returns `default` when the element is
absent; otherwise the element's text (empty when `None`), extended by the
tail when the tail is truthy, and stripped. -/
def extract_text (element : Option Element) (default : String := "") : String :=
  match element with
  | none => default
  | some e =>
    let text := e.text.getD ""
    let text := if e.tail.getD "" ≠ "" then text ++ e.tail.getD "" else text
    pyStrip text

/-- Model of `parser._extract_cdata`: empty for an absent element;
otherwise the element's own text stripped when truthy, else the
concatenation of all descendant text, stripped. -/
def extract_cdata (element : Option Element) : String :=
  match element with
  | none => ""
  | some e =>
    match e.text with
    | some t => if t ≠ "" then pyStrip t else pyStrip e.itertext
    | none => pyStrip e.itertext

/-- Abstract model of `datetime.datetime`: only the two `strftime`
renderings that the program uses are observable. -/
structure Datetime where
  full : String
  dateOnly : String
deriving DecidableEq, Repr

/-- The error classes among `dateutil.parser.parse`'s documented failures
that the `except (ValueError, TypeError)` clauses of `parser._parse_date`
and the `pub_date` validator catch.  This is a strict subset of the
documented classes: `OverflowError` is not caught; the full set is
`PyExc` below, and `parse_date_exc` models the uncaught path. -/
inductive PyErr where
  | valueError
  | typeError
deriving DecidableEq, Repr

/-- Abstract external date parser standing for `dateutil.parser.parse`,
restricted to runs in which it raises only the caught classes.  This is
the parameter of `parse_rss_feed`; the unrestricted parser type is
`DateParserExc` below, and `parse_date_exc_lift` shows the two models
agree on these runs. -/
def DateParser : Type := String → Except PyErr Datetime

/-- Model of `parser._parse_date`: falsy input (absent or empty string)
yields no date; otherwise the external parser is called and any
`ValueError`/`TypeError` is caught and converted to an absent date. -/
def parse_date (dp : DateParser) (date_str : Option String) : Option Datetime :=
  match date_str with
  | none => none
  | some s =>
    if s = "" then none
    else
      match dp s with
      | .ok d => some d
      | .error .valueError => none
      | .error .typeError => none

/-- Possible inputs to the `pub_date` field validator (Python `Any`,
restricted to the values that can reach it). -/
inductive PubDateValue where
  | null
  | str (s : String)
  | dt (d : Datetime)

/-- Model of `NewsItem.parse_pub_date` (the pydantic `pub_date` field
validator): `None` and `""` yield no date, a `datetime` passes through,
and a string is parsed with errors caught. -/
def parse_pub_date (dp : DateParser) : PubDateValue → Option Datetime
  | .null => none
  | .dt d => some d
  | .str s =>
    if s = "" then none
    else
      match dp s with
      | .ok d => some d
      | .error .valueError => none
      | .error .typeError => none

/-- All error classes that `dateutil.parser.parse` documents:
`ParserError` (a `ValueError` subclass) for invalid or unknown string
formats, `TypeError` for non-string input, and `OverflowError` when the
parsed date exceeds the largest valid C integer.  `OverflowError` is not
a `ValueError` and is not caught by the source's except clauses. -/
inductive PyExc where
  | valueError
  | typeError
  | overflowError
deriving DecidableEq, Repr

/-- Abstract external date parser standing for `dateutil.parser.parse`
with its full documented error behavior. -/
def DateParserExc : Type := String → Except PyExc Datetime

/-- Full model of `parser._parse_date` (parser.py lines 79-86): falsy
input yields no date; otherwise the external parser is called, a raised
`ValueError` or `TypeError` is caught and converted to an absent date,
and any other raised error — `OverflowError` — propagates uncaught. -/
def parse_date_exc (dpe : DateParserExc) (date_str : Option String) :
    Except PyExc (Option Datetime) :=
  match date_str with
  | none => .ok none
  | some s =>
    if s = "" then .ok none
    else
      match dpe s with
      | .ok d => .ok (some d)
      | .error .valueError => .ok none
      | .error .typeError => .ok none
      | .error .overflowError => .error .overflowError

/-- Full model of `NewsItem.parse_pub_date` (parser.py lines 24-36):
`None` and `""` yield no date, a `datetime` passes through, a string is
parsed with `ValueError`/`TypeError` caught and `OverflowError`
propagating uncaught. -/
def parse_pub_date_exc (dpe : DateParserExc) :
    PubDateValue → Except PyExc (Option Datetime)
  | .null => .ok none
  | .dt d => .ok (some d)
  | .str s =>
    if s = "" then .ok none
    else
      match dpe s with
      | .ok d => .ok (some d)
      | .error .valueError => .ok none
      | .error .typeError => .ok none
      | .error .overflowError => .error .overflowError

/-- Embed a caught-classes-only parser into the full error model. -/
def liftDP (dp : DateParser) : DateParserExc := fun s =>
  match dp s with
  | .ok d => .ok d
  | .error .valueError => .error .valueError
  | .error .typeError => .error .typeError

theorem parse_date_exc_lift (dp : DateParser) (ds : Option String) :
    parse_date_exc (liftDP dp) ds = .ok (parse_date dp ds) := by
  match ds with
  | none => rfl
  | some s =>
    simp only [parse_date_exc, parse_date, liftDP]
    by_cases hs : s = ""
    · simp [hs]
    · simp only [hs, if_false]
      cases h : dp s with
      | ok d => simp [h]
      | error e => cases e <;> simp [h]

theorem parse_pub_date_exc_lift (dp : DateParser) (v : PubDateValue) :
    parse_pub_date_exc (liftDP dp) v = .ok (parse_pub_date dp v) := by
  match v with
  | .null => rfl
  | .dt d => rfl
  | .str s =>
    simp only [parse_pub_date_exc, parse_pub_date, liftDP]
    by_cases hs : s = ""
    · simp [hs]
    · simp only [hs, if_false]
      cases h : dp s with
      | ok d => simp [h]
      | error e => cases e <;> simp [h]

/-- Model of the pydantic `NewsItem` record. -/
structure NewsItem where
  title : String
  link : String
  description : String := ""
  pub_date : Option Datetime := none
  author : Option String := none
  guid : Option String := none
  categories : List String := []
deriving DecidableEq, Repr

/-- Model of the pydantic `FeedMetadata` record. -/
structure FeedMetadata where
  title : String
  link : String
  description : String := ""
  last_build_date : Option Datetime := none
  language : Option String := none
deriving DecidableEq, Repr

/-- Model of the pydantic `ParsedFeed` record. -/
structure ParsedFeed where
  metadata : FeedMetadata
  items : List NewsItem := []
deriving DecidableEq, Repr

/-- Errors raised by `parse_rss_feed`: `malformedXml` stands for the
re-raised `ElementTree.ParseError`, `missingChannel` for the
`ValueError` raised when no `channel` element exists. -/
inductive PError where
  | malformedXml
  | missingChannel
deriving DecidableEq, Repr

/-- Model of the body of the item loop in `parse_rss_feed`
(parser.py lines 131-158): extract all fields of one `item` element and
materialize a `NewsItem` exactly when title and link are non-empty. -/
def mkItem? (dp : DateParser) (item_elem : Element) : Option NewsItem :=
  let title := extract_text (item_elem.find "title") ""
  let link := extract_text (item_elem.find "link") ""
  let description := extract_cdata (item_elem.find "description")
  let pub_date := parse_date dp (some (extract_text (item_elem.find "pubDate")))
  let author := extract_text (item_elem.find "author")
  let guid :=
    match item_elem.find "guid" with
    | some g => some (extract_text (some g))
    | none => none
  let categories :=
    ((item_elem.findall "category").filter
      (fun c => extract_text (some c) != "")).map (fun c => extract_text (some c))
  if title != "" && link != "" then
    some { title := title, link := link, description := description,
           pub_date := pub_date,
           author := if author != "" then some author else none,
           guid := guid, categories := categories }
  else none

/-- Model of the metadata extraction in `parse_rss_feed`
(parser.py lines 116-128). -/
def mkMetadata (dp : DateParser) (channel : Element) : FeedMetadata :=
  { title := extract_text (channel.find "title") "Unknown Feed",
    link := extract_text (channel.find "link") "",
    description := extract_text (channel.find "description") "",
    last_build_date := parse_date dp (some (extract_text (channel.find "lastBuildDate"))),
    language := some (extract_text (channel.find "language")) }

/-- Model of `parse_rss_feed`.  The `fromstring` argument is the result of
`ElementTree.fromstring(feed_content)`: `none` when the bytes are not
parseable as XML (in which case the `ParseError` is re-raised), otherwise
the root element. -/
def parse_rss_feed (dp : DateParser) (fromstring : Option Element) :
    Except PError ParsedFeed :=
  match fromstring with
  | none => .error .malformedXml
  | some root =>
    match root.find "channel" with
    | none => .error .missingChannel
    | some channel =>
      .ok { metadata := mkMetadata dp channel,
            items := (channel.findall "item").filterMap (mkItem? dp) }

/-- Model of the item truncation shared by both formatters
(`items[:max_items] if max_items is not None and max_items > 0`,
formatter.py lines 46-48 and 96-98). -/
def selectItems (items : List NewsItem) (max_items : Option Int) : List NewsItem :=
  match max_items with
  | some k => if 0 < k then items.take k.toNat else items
  | none => items

/-- Model of the metadata header block of `format_for_notebooklm`
(formatter.py lines 30-44). -/
def mdHeaderLines (md : FeedMetadata) : List String :=
  ["# Cybersecurity News Feed", "", "**Source:** " ++ md.title]
  ++ (if md.description ≠ "" then ["**Description:** " ++ md.description] else [])
  ++ (if md.link ≠ "" then ["**Website:** " ++ md.link] else [])
  ++ (match md.last_build_date with
      | some d => ["**Last Updated:** " ++ d.full]
      | none => [])
  ++ ["", "---", ""]

/-- Model of the body of the item loop of `format_for_notebooklm`
(formatter.py lines 50-75), for the 1-based index `idx`. -/
def mdItemLines (idx : Nat) (item : NewsItem) : List String :=
  ["## " ++ toString idx ++ ". " ++ item.title, ""]
  ++ (match item.pub_date with
      | some d => ["**Published:** " ++ d.full, ""]
      | none => [])
  ++ (if item.description ≠ "" then [clean_html item.description, ""] else [])
  ++ ["**Link:** " ++ item.link, ""]
  ++ (match item.author with
      | some a => if a ≠ "" then ["**Author:** " ++ a, ""] else []
      | none => [])
  ++ (if item.categories ≠ [] then
        ["**Categories:** " ++ String.intercalate ", " item.categories, ""]
      else [])
  ++ ["---", ""]

/-- Model of `format_for_notebooklm`: optional metadata header, then the
item blocks over the (possibly truncated) item list, joined by newlines. -/
def format_for_notebooklm (parsed_feed : ParsedFeed) (max_items : Option Int)
    (include_metadata : Bool) : String :=
  let header := if include_metadata then mdHeaderLines parsed_feed.metadata else []
  let items := selectItems parsed_feed.items max_items
  let body := (items.enum.map (fun p => mdItemLines (p.1 + 1) p.2)).flatten
  String.intercalate "\n" (header ++ body)

/-- Model of Python string slicing `s[:n]`: the first `n` characters
(code points) of the string. -/
def pySlice (s : String) (n : Nat) : String := ⟨s.data.take n⟩

/-- Model of the body of the item loop of `format_as_json_summary`
(formatter.py lines 108-116), for the 1-based index `idx`. -/
def summaryItemLines (idx : Nat) (item : NewsItem) : List String :=
  [toString idx ++ ". " ++ item.title]
  ++ (match item.pub_date with
      | some d => ["   Date: " ++ d.dateOnly]
      | none => [])
  ++ ["   URL: " ++ item.link]
  ++ (if item.description ≠ "" then
        ["   Summary: " ++ (pySlice (clean_html item.description) 200 ++ "...")]
      else [])
  ++ [""]

/-- Model of the line list built by `format_as_json_summary`
(formatter.py lines 96-116). -/
def summaryLines (parsed_feed : ParsedFeed) (max_items : Option Int) : List String :=
  let items := selectItems parsed_feed.items max_items
  ["Feed: " ++ parsed_feed.metadata.title,
   "Total Items: " ++ toString items.length,
   "",
   "Articles:",
   ""]
  ++ (items.enum.map (fun p => summaryItemLines (p.1 + 1) p.2)).flatten

/-- Model of `format_as_json_summary`: the summary lines joined by
newlines. -/
def format_as_json_summary (parsed_feed : ParsedFeed) (max_items : Option Int) :
    String :=
  String.intercalate "\n" (summaryLines parsed_feed max_items)

/-- Outcome of one HTTP GET attempt inside `fetch_rss_feed`: a successful
response (body, final URL, status code), a response with an error status
(`response.raise_for_status()` raising `httpx.HTTPStatusError`), or a
network-level `httpx.RequestError`. -/
inductive AttemptOutcome where
  | success (content : String) (url : String) (status : Nat)
  | httpStatusError (status : Nat)
  | requestError (msg : String)
deriving DecidableEq, Repr

/-- Model of the dictionary returned by `fetch_rss_feed` on success. -/
structure FetchResult where
  content : String
  url : String
  status_code : Nat
deriving DecidableEq, Repr

/-- Errors surfaced by `fetch_rss_feed`. -/
inductive FetchError where
  | httpStatusError (status : Nat)
  | requestError (msg : String)
  | allRetriesFailed
deriving DecidableEq, Repr

/-- Model of the retry loop of `fetch_rss_feed` (feed_fetcher.py lines
41-72).  `outcomes a` is the outcome of the network request of attempt
`a`; the second component of the result is the list of attempt numbers at
which a request was actually issued.  `allRetriesFailed` models the
`httpx.HTTPError` raised after the loop exits without returning. -/
def fetchLoop (outcomes : Nat → AttemptOutcome) (max_retries : Nat) :
    List Nat → List Nat → Except FetchError FetchResult × List Nat
  | [], log => (.error .allRetriesFailed, log)
  | attempt :: rest, log =>
    let log2 := log ++ [attempt]
    match outcomes attempt with
    | .success c u s => (.ok ⟨c, u, s⟩, log2)
    | .httpStatusError st =>
      if attempt = max_retries then (.error (.httpStatusError st), log2)
      else fetchLoop outcomes max_retries rest log2
    | .requestError m =>
      if attempt = max_retries then (.error (.requestError m), log2)
      else fetchLoop outcomes max_retries rest log2

/-- Model of `fetch_rss_feed` after URL validation (feed_fetcher.py lines
41-72): iterate over `range(1, max_retries + 1)` with an empty request
log. -/
def fetch_rss_feed (outcomes : Nat → AttemptOutcome) (max_retries : Nat) :
    Except FetchError FetchResult × List Nat :=
  fetchLoop outcomes max_retries (List.range' 1 max_retries) []

/-- Whether an attempt outcome is a failure (HTTP error status or
network-level error, treated identically by the retry loop). -/
def attemptFails : AttemptOutcome → Bool
  | .success _ _ _ => false
  | .httpStatusError _ => true
  | .requestError _ => true

/-- The error surfaced when a given failing outcome happens on the final
attempt. -/
def outcomeError : AttemptOutcome → Option FetchError
  | .success _ _ _ => none
  | .httpStatusError st => some (.httpStatusError st)
  | .requestError m => some (.requestError m)

/-- Concrete external date parser that always fails (every string is
unparseable), used for witnesses. -/
def dpNone : DateParser := fun _ => .error .valueError

/-- Concrete external date parser that always succeeds with a fixed
timestamp, used for witnesses. -/
def dpFixed : DateParser := fun _ => .ok ⟨"2024-01-01 12:00:00 UTC", "2024-01-01"⟩

/-- Concrete news items and feed used for witnesses. -/
def itemA : NewsItem := { title := "A", link := "http://x" }

def itemB : NewsItem := { title := "B", link := "http://y" }

def sampleFeed2 : ParsedFeed :=
  { metadata := { title := "F", link := "" }, items := [itemA, itemB] }

/-- C2: for every feed and every `max_items` value `k`, both formatters
render exactly the items of `selectItems`, which is the length-`min k T`
prefix of the item list when `k > 0` (order preserved) and the whole list
when `k ≤ 0` or `max_items` is `None`. -/
theorem C2_max_items_truncation (feed : ParsedFeed) (k : Int) (im : Bool) :
    format_for_notebooklm feed (some k) im =
      String.intercalate "\n"
        ((if im then mdHeaderLines feed.metadata else [])
          ++ ((selectItems feed.items (some k)).enum.map
                (fun p => mdItemLines (p.1 + 1) p.2)).flatten)
    ∧ format_as_json_summary feed (some k) =
        String.intercalate "\n" (summaryLines feed (some k))
    ∧ (0 < k →
        (selectItems feed.items (some k)).length = min k.toNat feed.items.length
        ∧ ∀ i : Nat, i < min k.toNat feed.items.length →
            (selectItems feed.items (some k))[i]? = feed.items[i]?)
    ∧ (k ≤ 0 → selectItems feed.items (some k) = feed.items)
    ∧ selectItems feed.items none = feed.items := by
  refine ⟨rfl, rfl, ?_, ?_, rfl⟩
  · intro hk
    have hsel : selectItems feed.items (some k) = feed.items.take k.toNat := by
      simp [selectItems, hk]
    refine ⟨by rw [hsel]; exact List.length_take _ _, ?_⟩
    intro i hi
    rw [hsel]
    exact List.getElem?_take_of_lt (lt_of_lt_of_le hi (Nat.min_le_left _ _))
  · intro hk
    simp [selectItems, not_lt.mpr hk]

theorem C2_max_items_truncation_witness :
    (selectItems sampleFeed2.items (some 1)).length = 1
    ∧ (selectItems sampleFeed2.items (some 1))[0]? = sampleFeed2.items[0]?
    ∧ selectItems sampleFeed2.items (some (-2)) = sampleFeed2.items := by
  have h := (C2_max_items_truncation sampleFeed2 1 true).2.2.1 (by norm_num)
  have h2 := (C2_max_items_truncation sampleFeed2 (-2) true).2.2.2.1 (by norm_num)
  exact ⟨by rw [h.1]; rfl, h.2 0 (by decide), h2⟩

/-- C4 counterexample: with two items and `max_items = 1`, the summary's
second line reports the truncated count 1, not the feed's total item
count 2. -/
theorem C4_counterexample :
    (summaryLines sampleFeed2 (some 1))[1]? = some "Total Items: 1"
    ∧ sampleFeed2.items.length = 2
    ∧ ("Total Items: 1" : String) ≠ "Total Items: 2" := by
  refine ⟨?_, rfl, by decide⟩
  rfl

/-- C4 amended: the `Total Items` line of the summary formatter reports
the number of listed (truncated) items, `min(k, T)` when a positive
`max_items` is given, not the feed's total item count. -/
theorem C4_total_items_line (feed : ParsedFeed) (mi : Option Int) :
    (summaryLines feed mi)[1]? =
      some ("Total Items: " ++ toString (selectItems feed.items mi).length)
    ∧ format_as_json_summary feed mi =
        String.intercalate "\n" (summaryLines feed mi) :=
  ⟨rfl, rfl⟩

/-- C5: in summary mode an item with a non-empty description gets a
summary line holding the cleaned description truncated to its first 200
characters with the ellipsis marker appended unconditionally (so cleaning
`"short"` yields `"short..."`), and an item with an empty description
emits no summary line (its block is exactly title, optional date and
URL). -/
theorem C5_summary_description (idx : Nat) (item : NewsItem) :
    (item.description ≠ "" →
      ("   Summary: " ++ (pySlice (clean_html item.description) 200 ++ "..."))
        ∈ summaryItemLines idx item)
    ∧ (item.description = "" →
        summaryItemLines idx item =
          [toString idx ++ ". " ++ item.title]
          ++ (match item.pub_date with
              | some d => ["   Date: " ++ d.dateOnly]
              | none => [])
          ++ ["   URL: " ++ item.link, ""])
    ∧ pySlice (clean_html "short") 200 ++ "..." = "short..." := by
  refine ⟨?_, ?_, by decide⟩
  · intro h
    simp [summaryItemLines, h]
  · intro h
    simp [summaryItemLines, h]

theorem C5_summary_description_witness :
    ("   Summary: short..." : String)
      ∈ summaryItemLines 1 { itemA with description := "short" } := by
  have h := (C5_summary_description 1 { itemA with description := "short" }).1
    (by decide)
  have e : "   Summary: " ++ (pySlice (clean_html "short") 200 ++ "...")
      = "   Summary: short..." := by decide
  rw [show ({ itemA with description := "short" } : NewsItem).description
      = "short" from rfl] at h
  rw [e] at h
  exact h

theorem find?_first {α : Type} (p : α → Bool) (pre post : List α) (c : α)
    (hpre : ∀ e ∈ pre, p e = false) (hc : p c = true) :
    (pre ++ c :: post).find? p = some c := by
  induction pre with
  | nil => simp [List.find?_cons, hc]
  | cons a l ih =>
    have ha := hpre a (by simp)
    simp only [List.cons_append, List.find?_cons, ha]
    exact ih fun e he => hpre e (by simp [he])

/-- C7: parsing fails with `malformedXml` exactly when the input bytes are
not parseable as XML (the `fromstring` result is absent), fails with
`missingChannel` exactly when the root has no `channel` child, and when
several `channel` children exist only the first one in document order is
used. -/
theorem C7_parse_errors (dp : DateParser) (fromstring : Option Element) :
    (parse_rss_feed dp fromstring = .error .malformedXml ↔ fromstring = none)
    ∧ (∀ root, fromstring = some root →
        (parse_rss_feed dp fromstring = .error .missingChannel ↔
          root.find "channel" = none))
    ∧ (∀ root pre c post, fromstring = some root →
        root.children = pre ++ c :: post → c.tag = "channel" →
        (∀ e ∈ pre, e.tag ≠ "channel") →
        root.find "channel" = some c
        ∧ parse_rss_feed dp fromstring =
            .ok { metadata := mkMetadata dp c,
                  items := (c.findall "item").filterMap (mkItem? dp) }) := by
  refine ⟨?_, ?_, ?_⟩
  · cases fromstring with
    | none => simp [parse_rss_feed]
    | some root =>
      simp only [parse_rss_feed]
      cases root.find "channel" <;> simp
  · intro root hf
    subst hf
    simp only [parse_rss_feed]
    cases root.find "channel" <;> simp
  · intro root pre c post hf hch htag hpre
    subst hf
    have hfind : root.find "channel" = some c := by
      unfold Element.find
      rw [hch]
      exact find?_first _ pre post c
        (fun e he => by
          have := hpre e he
          simp [this]) (by simp [htag])
    refine ⟨hfind, ?_⟩
    simp [parse_rss_feed, hfind]

def c7chan1 : Element := .mk "channel" none none [.mk "title" (some "one") none []]

def c7chan2 : Element := .mk "channel" none none [.mk "title" (some "two") none []]

def c7root : Element := .mk "rss" none none [c7chan1, c7chan2]

theorem C7_parse_errors_witness :
    c7root.find "channel" = some c7chan1
    ∧ parse_rss_feed dpNone (some c7root) =
        .ok { metadata := mkMetadata dpNone c7chan1,
              items := (c7chan1.findall "item").filterMap (mkItem? dpNone) }
    ∧ parse_rss_feed dpNone none = .error .malformedXml := by
  have h := (C7_parse_errors dpNone (some c7root)).2.2 c7root [] c7chan1 [c7chan2]
    rfl rfl rfl (by simp)
  exact ⟨h.1, h.2, (C7_parse_errors dpNone none).1.mpr rfl⟩

/-- Concrete external parser behavior at a date string whose parsed value
exceeds the largest valid C integer: dateutil documents that
`dateutil.parser.parse` raises `OverflowError` there. -/
def dpOverflow : DateParserExc := fun _ => .error .overflowError

/-- C8 counterexample: date parsing can raise.  At a date string whose
parsed value overflows (e.g. `"9999999999999999999"`), the external
parser raises `OverflowError`, which the `except (ValueError, TypeError)`
clauses of `_parse_date` and the `pub_date` validator do not catch, so
the error propagates instead of degrading to an absent date. -/
theorem C8_counterexample :
    parse_date_exc dpOverflow (some "9999999999999999999") =
      .error .overflowError
    ∧ parse_pub_date_exc dpOverflow (.str "9999999999999999999") =
        .error .overflowError
    ∧ (Except.error PyExc.overflowError
        ≠ (Except.ok none : Except PyExc (Option Datetime)))
    ∧ ∀ d : Datetime, Except.error PyExc.overflowError
        ≠ (Except.ok (some d) : Except PyExc (Option Datetime)) := by
  exact ⟨rfl, rfl, fun h => Except.noConfusion h,
    fun d h => Except.noConfusion h⟩

/-- C8 amended: date parsing never raises as long as the external parser
either succeeds or fails with one of the caught classes (`ValueError`,
dateutil's `ParserError`, or `TypeError`): absent or empty input and
caught failures yield an absent date, a parseable string yields the
parsed timestamp — for both `_parse_date` and the `pub_date` validator —
but an `OverflowError` raised by the external parser propagates uncaught
through both. -/
theorem C8_date_parsing_caught (dpe : DateParserExc) :
    parse_date_exc dpe none = .ok none
    ∧ parse_date_exc dpe (some "") = .ok none
    ∧ (∀ s d, s ≠ "" → dpe s = .ok d →
        parse_date_exc dpe (some s) = .ok (some d))
    ∧ (∀ s, dpe s = .error .valueError →
        parse_date_exc dpe (some s) = .ok none)
    ∧ (∀ s, dpe s = .error .typeError →
        parse_date_exc dpe (some s) = .ok none)
    ∧ (∀ s, s ≠ "" → dpe s = .error .overflowError →
        parse_date_exc dpe (some s) = .error .overflowError)
    ∧ parse_pub_date_exc dpe .null = .ok none
    ∧ parse_pub_date_exc dpe (.str "") = .ok none
    ∧ (∀ d, parse_pub_date_exc dpe (.dt d) = .ok (some d))
    ∧ (∀ s d, s ≠ "" → dpe s = .ok d →
        parse_pub_date_exc dpe (.str s) = .ok (some d))
    ∧ (∀ s, dpe s = .error .valueError →
        parse_pub_date_exc dpe (.str s) = .ok none)
    ∧ (∀ s, dpe s = .error .typeError →
        parse_pub_date_exc dpe (.str s) = .ok none)
    ∧ (∀ s, s ≠ "" → dpe s = .error .overflowError →
        parse_pub_date_exc dpe (.str s) = .error .overflowError) := by
  refine ⟨rfl, rfl, ?_, ?_, ?_, ?_, rfl, rfl, fun d => rfl, ?_, ?_, ?_, ?_⟩
  · intro s d hs hd
    simp [parse_date_exc, hs, hd]
  · intro s hd
    by_cases hs : s = ""
    · simp [parse_date_exc, hs]
    · simp [parse_date_exc, hs, hd]
  · intro s hd
    by_cases hs : s = ""
    · simp [parse_date_exc, hs]
    · simp [parse_date_exc, hs, hd]
  · intro s hs hd
    simp [parse_date_exc, hs, hd]
  · intro s d hs hd
    simp [parse_pub_date_exc, hs, hd]
  · intro s hd
    by_cases hs : s = ""
    · simp [parse_pub_date_exc, hs]
    · simp [parse_pub_date_exc, hs, hd]
  · intro s hd
    by_cases hs : s = ""
    · simp [parse_pub_date_exc, hs]
    · simp [parse_pub_date_exc, hs, hd]
  · intro s hs hd
    simp [parse_pub_date_exc, hs, hd]

/-- Concrete external parser in the full error model that always fails
with the caught `ValueError` class. -/
def dpeVal : DateParserExc := fun _ => .error .valueError

/-- Concrete external parser in the full error model that always
succeeds with a fixed timestamp. -/
def dpeFixed : DateParserExc :=
  fun _ => .ok ⟨"2024-01-01 12:00:00 UTC", "2024-01-01"⟩

theorem C8_date_parsing_caught_witness :
    parse_date_exc dpeVal (some "not-a-date") = .ok none
    ∧ parse_date_exc dpeFixed (some "Mon, 01 Jan 2024 12:00:00 GMT") =
        .ok (some ⟨"2024-01-01 12:00:00 UTC", "2024-01-01"⟩)
    ∧ parse_pub_date_exc dpeVal (.str "not-a-date") = .ok none
    ∧ parse_date_exc dpeVal none = .ok none := by
  refine ⟨?_, ?_, ?_, (C8_date_parsing_caught dpeVal).1⟩
  · exact (C8_date_parsing_caught dpeVal).2.2.2.1 "not-a-date" rfl
  · exact (C8_date_parsing_caught dpeFixed).2.2.1
      "Mon, 01 Jan 2024 12:00:00 GMT" _ (by decide) rfl
  · exact (C8_date_parsing_caught dpeVal).2.2.2.2.2.2.2.2.2.2.1
      "not-a-date" rfl

/-- C10: a channel without a `language` element yields metadata whose
language is the empty string (not unset), whereas an item without an
`author` or `guid` element yields unset author and guid. -/
theorem C10_absent_optional_fields (dp : DateParser) (root channel : Element)
    (hc : root.find "channel" = some channel)
    (hl : channel.find "language" = none) :
    parse_rss_feed dp (some root) =
      .ok { metadata := mkMetadata dp channel,
            items := (channel.findall "item").filterMap (mkItem? dp) }
    ∧ (mkMetadata dp channel).language = some ""
    ∧ (mkMetadata dp channel).language ≠ none
    ∧ (∀ e item, e.find "author" = none → mkItem? dp e = some item →
        item.author = none)
    ∧ (∀ e item, e.find "guid" = none → mkItem? dp e = some item →
        item.guid = none) := by
  refine ⟨by simp [parse_rss_feed, hc], ?_, ?_, ?_, ?_⟩
  · simp [mkMetadata, hl, extract_text]
  · simp [mkMetadata, hl, extract_text]
  · intro e item ha hmk
    simp only [mkItem?, ha] at hmk
    split at hmk
    · cases hmk
      simp [extract_text]
    · cases hmk
  · intro e item hg hmk
    simp only [mkItem?, hg] at hmk
    split at hmk
    · cases hmk
      rfl
    · cases hmk

def c10item : Element :=
  .mk "item" none none
    [.mk "title" (some "A") none [], .mk "link" (some "http://x") none []]

def c10chan : Element :=
  .mk "channel" none none [.mk "title" (some "F") none [], c10item]

def c10root : Element := .mk "rss" none none [c10chan]

theorem C10_absent_optional_fields_witness :
    (mkMetadata dpNone c10chan).language = some ""
    ∧ itemA.author = none ∧ itemA.guid = none := by
  have h := C10_absent_optional_fields dpNone c10root c10chan rfl rfl
  exact ⟨h.2.1,
    h.2.2.2.1 c10item itemA rfl (by decide),
    h.2.2.2.2 c10item itemA rfl (by decide)⟩

/-- The condition under which the item loop materializes an item
(`if title and link`): trimmed title and trimmed link both non-empty. -/
def keepB (item_elem : Element) : Bool :=
  extract_text (item_elem.find "title") != ""
    && extract_text (item_elem.find "link") != ""

/-- The `NewsItem` built by the item loop for a kept item element. -/
def mkItem (dp : DateParser) (item_elem : Element) : NewsItem :=
  { title := extract_text (item_elem.find "title"),
    link := extract_text (item_elem.find "link"),
    description := extract_cdata (item_elem.find "description"),
    pub_date := parse_date dp (some (extract_text (item_elem.find "pubDate"))),
    author :=
      if extract_text (item_elem.find "author") != ""
      then some (extract_text (item_elem.find "author")) else none,
    guid :=
      match item_elem.find "guid" with
      | some g => some (extract_text (some g))
      | none => none,
    categories :=
      ((item_elem.findall "category").filter
        (fun c => extract_text (some c) != "")).map
          (fun c => extract_text (some c)) }

theorem mkItem?_eq (dp : DateParser) (e : Element) :
    mkItem? dp e = if keepB e then some (mkItem dp e) else none := rfl

theorem filterMap_guard {α β : Type} (p : α → Bool) (f : α → β) :
    ∀ l : List α,
      l.filterMap (fun a => if p a then some (f a) else none) =
        (l.filter p).map f := by
  intro l
  induction l with
  | nil => rfl
  | cons a l ih =>
    by_cases hp : p a
    · simp [List.filterMap_cons, List.filter_cons, hp, ih]
    · simp [List.filterMap_cons, List.filter_cons, hp, ih]

/-- C1: for every well-formed RSS document (an XML tree whose root has a
`channel` child), parsing succeeds with no error and returns exactly the
item elements whose trimmed title and trimmed link are both non-empty, in
document order; items failing the condition are silently dropped. -/
theorem C1_items_filtered (dp : DateParser) (root channel : Element)
    (hc : root.find "channel" = some channel) :
    parse_rss_feed dp (some root) =
      .ok { metadata := mkMetadata dp channel,
            items := ((channel.findall "item").filter keepB).map (mkItem dp) }
    ∧ (∀ e, keepB e = true ↔
        (extract_text (e.find "title") ≠ ""
          ∧ extract_text (e.find "link") ≠ "")) := by
  constructor
  · simp only [parse_rss_feed, hc]
    have hfun : mkItem? dp =
        fun e => if keepB e then some (mkItem dp e) else none :=
      funext fun e => mkItem?_eq dp e
    rw [hfun, filterMap_guard]
  · intro e
    simp [keepB]

def c1item1 : Element :=
  .mk "item" none none
    [.mk "title" (some "A") none [], .mk "link" (some "http://x") none []]

def c1item2 : Element :=
  .mk "item" none none
    [.mk "title" (some "") none [], .mk "link" (some "http://y") none []]

def c1chan : Element :=
  .mk "channel" none none [.mk "title" (some "T") none [], c1item1, c1item2]

/-- The scenario document of the spec: two items, the second with an empty
title. -/
def c1root : Element := .mk "rss" none none [c1chan]

theorem C1_items_filtered_witness :
    parse_rss_feed dpNone (some c1root) =
      .ok { metadata := { title := "T", link := "", description := "",
                          last_build_date := none, language := some "" },
            items := [{ title := "A", link := "http://x" }] } := by
  rw [(C1_items_filtered dpNone c1root c1chan rfl).1]
  have : ((c1chan.findall "item").filter keepB).map (mkItem dpNone) =
      [{ title := "A", link := "http://x" }] := by decide
  rw [this]
  have hm : mkMetadata dpNone c1chan =
      { title := "T", link := "", description := "",
        last_build_date := none, language := some "" } := by decide
  rw [hm]

def c9desc : Element := .mk "description" (some "d") (some " X") []

/-- Item element whose description element carries tail text `" X"`. -/
def c9item : Element :=
  .mk "item" none none
    [.mk "title" (some "A") none [], .mk "link" (some "http://x") none [],
     c9desc]

def c9root : Element :=
  .mk "rss" none none [.mk "channel" none none [c9item]]

/-- C9 counterexample: the description field is extracted with
`_extract_cdata`, which ignores the tail: parsing an item whose
description element has text `"d"` and tail `" X"` yields description
`"d"`, while `_extract_text` on the same element yields `"d X"` — so the
tail does not become part of the description value. -/
theorem C9_counterexample :
    extract_text (some c9desc) = "d X"
    ∧ (parse_rss_feed dpNone (some c9root)).toOption.map
        (fun f => f.items.map (fun i => i.description)) = some ["d"]
    ∧ ("d" : String) ≠ "d X" := by
  refine ⟨by decide, by decide, by decide⟩

/-- C9 amended: `_extract_text` returns the element's text concatenated
with its tail, stripped (default for an absent element), and is the
extractor for title, link, author, guid, category and the channel
metadata fields; the item description field alone uses `_extract_cdata`
instead, so tail text does not reach the description. -/
theorem C9_extract_text_behavior (dp : DateParser) (e : Element) (d : String) :
    extract_text (some e) d = pyStrip (e.text.getD "" ++ e.tail.getD "")
    ∧ extract_text none d = d
    ∧ (∀ item_elem item, mkItem? dp item_elem = some item →
        item.title = extract_text (item_elem.find "title")
        ∧ item.link = extract_text (item_elem.find "link")
        ∧ item.author = (if extract_text (item_elem.find "author") != ""
            then some (extract_text (item_elem.find "author")) else none)
        ∧ item.guid = (match item_elem.find "guid" with
            | some g => some (extract_text (some g))
            | none => none)
        ∧ item.categories = ((item_elem.findall "category").filter
            (fun c => extract_text (some c) != "")).map
              (fun c => extract_text (some c))
        ∧ item.description = extract_cdata (item_elem.find "description"))
    ∧ (mkMetadata dp e).title = extract_text (e.find "title") "Unknown Feed"
    ∧ (mkMetadata dp e).link = extract_text (e.find "link")
    ∧ (mkMetadata dp e).description = extract_text (e.find "description") := by
  refine ⟨?_, rfl, ?_, rfl, rfl, rfl⟩
  · by_cases h : e.tail.getD "" = ""
    · simp [extract_text, h]
    · simp [extract_text, h]
  · intro item_elem item hmk
    simp only [mkItem?] at hmk
    split at hmk
    · cases hmk
      exact ⟨rfl, rfl, rfl, rfl, rfl, rfl⟩
    · cases hmk

theorem C9_extract_text_behavior_witness :
    ({ title := "A", link := "http://x", description := "d" } : NewsItem).description
      = extract_cdata (c9item.find "description") := by
  have h := (C9_extract_text_behavior dpNone c9item "").2.2.1 c9item
    { title := "A", link := "http://x", description := "d" } (by decide)
  exact h.2.2.2.2.2

theorem fetchLoop_all_fail (outcomes : Nat → AttemptOutcome) (mr : Nat) :
    ∀ (l : List Nat) (log : List Nat),
      (∀ a ∈ l ++ [mr], attemptFails (outcomes a) = true) →
      mr ∉ l →
      ∃ e, outcomeError (outcomes mr) = some e
        ∧ fetchLoop outcomes mr (l ++ [mr]) log = (.error e, log ++ l ++ [mr]) := by
  intro l
  induction l with
  | nil =>
    intro log hfail _
    have hmr := hfail mr (by simp)
    simp only [List.nil_append, fetchLoop]
    cases ho : outcomes mr with
    | success c u s => rw [ho] at hmr; simp [attemptFails] at hmr
    | httpStatusError st =>
      exact ⟨.httpStatusError st, by simp [outcomeError, ho], by simp [ho]⟩
    | requestError m =>
      exact ⟨.requestError m, by simp [outcomeError, ho], by simp [ho]⟩
  | cons a l ih =>
    intro log hfail hnm
    have ha : a ≠ mr := fun h => hnm (by simp [h])
    have hafail := hfail a (by simp)
    have hrest : ∀ x ∈ l ++ [mr], attemptFails (outcomes x) = true :=
      fun x hx => hfail x (by simp at hx ⊢; tauto)
    obtain ⟨e, he, hloop⟩ := ih (log ++ [a]) hrest (fun h => hnm (by simp [h]))
    refine ⟨e, he, ?_⟩
    cases ho : outcomes a with
    | success c u s => rw [ho] at hafail; simp [attemptFails] at hafail
    | httpStatusError st => simp [fetchLoop, ho, ha, hloop]
    | requestError m => simp [fetchLoop, ho, ha, hloop]

/-- C6: with a valid URL, `fetch_rss_feed` issues exactly `max_retries`
requests when every attempt fails (HTTP error status and network error
treated identically) and surfaces the error of the final attempt; it
issues exactly one request when the first attempt succeeds, returning the
response body, final URL and status code. -/
theorem C6_retry_policy (outcomes : Nat → AttemptOutcome) (max_retries : Nat)
    (h1 : 1 ≤ max_retries) :
    ((∀ a, 1 ≤ a → a ≤ max_retries → attemptFails (outcomes a) = true) →
      ∃ e, outcomeError (outcomes max_retries) = some e
        ∧ fetch_rss_feed outcomes max_retries =
            (.error e, List.range' 1 max_retries))
    ∧ (∀ c u s, outcomes 1 = .success c u s →
        fetch_rss_feed outcomes max_retries = (.ok ⟨c, u, s⟩, [1]))
    ∧ (List.range' 1 max_retries).length = max_retries := by
  refine ⟨?_, ?_, List.length_range' 1 1 max_retries⟩
  · intro hfail
    have hsplit : List.range' 1 max_retries =
        List.range' 1 (max_retries - 1) ++ [max_retries] := by
      have : max_retries = (max_retries - 1) + 1 := by omega
      rw [this, List.range'_1_concat]
      congr 2
      omega
    have hmem : ∀ a ∈ List.range' 1 (max_retries - 1) ++ [max_retries],
        attemptFails (outcomes a) = true := by
      intro a ha
      simp only [List.mem_append, List.mem_singleton] at ha
      cases ha with
      | inl h =>
        obtain ⟨i, hi, rfl⟩ := List.mem_range'.1 h
        exact hfail _ (by omega) (by omega)
      | inr h => exact hfail _ (by omega) (by omega)
    have hnm : max_retries ∉ List.range' 1 (max_retries - 1) := by
      intro h
      obtain ⟨i, hi, he⟩ := List.mem_range'.1 h
      omega
    obtain ⟨e, he, hloop⟩ :=
      fetchLoop_all_fail outcomes max_retries (List.range' 1 (max_retries - 1))
        [] hmem hnm
    refine ⟨e, he, ?_⟩
    rw [fetch_rss_feed, hsplit, hloop]
    simp
  · intro c u s hs
    have hsplit : List.range' 1 max_retries =
        1 :: List.range' 2 (max_retries - 1) := by
      have h2 : max_retries = (max_retries - 1) + 1 := by omega
      conv_lhs => rw [h2]
      rw [List.range'_succ]
    rw [fetch_rss_feed, hsplit]
    simp [fetchLoop, hs]

/-- Outcome function where every attempt fails with HTTP status 404. -/
def failAll : Nat → AttemptOutcome := fun _ => .httpStatusError 404

/-- Outcome function where every attempt succeeds. -/
def okFirst : Nat → AttemptOutcome := fun _ => .success "body" "http://u" 200

theorem C6_retry_policy_witness :
    fetch_rss_feed failAll 3 = (.error (.httpStatusError 404), [1, 2, 3])
    ∧ fetch_rss_feed okFirst 3 = (.ok ⟨"body", "http://u", 200⟩, [1]) := by
  constructor
  · obtain ⟨e, he, hf⟩ := (C6_retry_policy failAll 3 (by norm_num)).1
      (fun a _ _ => rfl)
    injection (show some (FetchError.httpStatusError 404) = some e from he) with h
    rw [hf, ← h]
    rfl
  · exact (C6_retry_policy okFirst 3 (by norm_num)).2.1 "body" "http://u" 200 rfl

theorem mem_skipToGt {c : Char} :
    ∀ {cs rest : List Char}, skipToGt cs = some rest → c ∈ rest → c ∈ cs := by
  intro cs
  induction cs with
  | nil => intro rest h; simp [skipToGt] at h
  | cons a l ih =>
    intro rest h hc
    simp only [skipToGt] at h
    by_cases ha : a = '>'
    · simp only [ha, if_true, Option.some.injEq] at h
      exact List.mem_cons_of_mem _ (h ▸ hc)
    · simp only [ha, if_false] at h
      exact List.mem_cons_of_mem _ (ih h hc)

theorem mem_dropTag {c : Char} {cs rest : List Char}
    (h : dropTag cs = some rest) (hc : c ∈ rest) : c ∈ cs := by
  match cs with
  | [] => simp [dropTag] at h
  | a :: l =>
    simp only [dropTag] at h
    by_cases ha : a = '>'
    · simp [ha] at h
    · simp only [ha, if_false] at h
      exact List.mem_cons_of_mem _ (mem_skipToGt h hc)

theorem skipToGt_none_no_gt :
    ∀ {cs : List Char}, skipToGt cs = none → ('>' : Char) ∉ cs := by
  intro cs
  induction cs with
  | nil => intro _ h; simp at h
  | cons a l ih =>
    intro h hm
    simp only [skipToGt] at h
    by_cases ha : a = '>'
    · simp [ha] at h
    · simp only [ha, if_false] at h
      rcases List.mem_cons.1 hm with h' | h'
      · exact ha h'.symm
      · exact ih h h'

theorem skipToGt_none_of_no_gt :
    ∀ {cs : List Char}, ('>' : Char) ∉ cs → skipToGt cs = none := by
  intro cs
  induction cs with
  | nil => intro _; rfl
  | cons a l ih =>
    intro h
    have ha : a ≠ '>' := fun e => h (e ▸ List.mem_cons_self _ _)
    simp only [skipToGt, if_neg (fun e => ha e)]
    exact ih (fun hm => h (List.mem_cons_of_mem _ hm))

theorem dropTag_none_of_no_gt {cs : List Char} (h : ('>' : Char) ∉ cs) :
    dropTag cs = none := by
  match cs with
  | [] => rfl
  | a :: l =>
    simp only [dropTag]
    by_cases ha : a = '>'
    · simp [ha]
    · simp only [ha, if_false]
      exact skipToGt_none_of_no_gt (fun hm => h (List.mem_cons_of_mem _ hm))

theorem mem_removeTags_aux (n : Nat) : ∀ s : List Char, s.length ≤ n →
    ∀ c : Char, c ∈ removeTags s → c ∈ s := by
  induction n using Nat.strong_induction_on with
  | _ n ih =>
    intro s hs c hc
    match s with
    | [] => simpa [removeTags_nil] using hc
    | a :: rest =>
      simp only [List.length_cons] at hs
      by_cases ha : a = '<'
      · cases hd : dropTag rest with
        | some rest2 =>
          rw [removeTags_cons_match ha hd] at hc
          have hl := dropTag_length hd
          have h2 : c ∈ rest2 :=
            ih rest2.length (by omega) rest2 (le_refl _) c hc
          exact List.mem_cons_of_mem _ (mem_dropTag hd h2)
        | none =>
          rw [removeTags_cons_nomatch (by simp [hd])] at hc
          rcases List.mem_cons.1 hc with h' | h'
          · exact h' ▸ List.mem_cons_self _ _
          · exact List.mem_cons_of_mem _
              (ih rest.length (by omega) rest (le_refl _) c h')
      · rw [removeTags_cons_nomatch (fun hh => ha hh.1)] at hc
        rcases List.mem_cons.1 hc with h' | h'
        · exact h' ▸ List.mem_cons_self _ _
        · exact List.mem_cons_of_mem _
            (ih rest.length (by omega) rest (le_refl _) c h')

theorem mem_removeTags {c : Char} {s : List Char} (h : c ∈ removeTags s) :
    c ∈ s :=
  mem_removeTags_aux s.length s (le_refl _) c h

theorem unescape_id_of_no_amp :
    ∀ {s : List Char}, ('&' : Char) ∉ s → unescape s = s := by
  have main : ∀ n : Nat, ∀ s : List Char, s.length ≤ n →
      ('&' : Char) ∉ s → unescape s = s := by
    intro n
    induction n with
    | zero =>
      intro s hs _
      match s with
      | [] => rfl
    | succ n ih =>
      intro s hs hm
      match s with
      | [] => rfl
      | c :: rest =>
        have hc : c ≠ '&' := fun h => hm (h ▸ List.mem_cons_self _ _)
        rw [unescape_cons_nomatch (fun hh => hc hh.1)]
        simp only [List.length_cons] at hs
        rw [ih rest (by omega) (fun h => hm (List.mem_cons_of_mem _ h))]
  exact fun {s} h => main s.length s (le_refl _) h

/-- No occurrence of the tag pattern `<[^>]+>`: every `<` is either
immediately followed by `>` or has no `>` anywhere after it. -/
def noTagB : List Char → Bool
  | [] => true
  | c :: rest =>
    ((c != '<') || (rest.head? == some '>') || !(rest.contains '>'))
      && noTagB rest

theorem noTagB_tail {c : Char} {l : List Char} (h : noTagB (c :: l) = true) :
    noTagB l = true := by
  simp only [noTagB, Bool.and_eq_true] at h
  exact h.2

theorem contains_gt_iff (l : List Char) :
    l.contains '>' = true ↔ ('>' : Char) ∈ l := List.elem_iff

theorem removeTags_of_noTagB :
    ∀ s : List Char, noTagB s = true → removeTags s = s := by
  have main : ∀ n : Nat, ∀ s : List Char, s.length ≤ n →
      noTagB s = true → removeTags s = s := by
    intro n
    induction n with
    | zero =>
      intro s hs _
      match s with
      | [] => rfl
    | succ n ih =>
      intro s hs hn
      match s with
      | [] => rfl
      | c :: rest =>
        simp only [List.length_cons] at hs
        have htail := noTagB_tail hn
        by_cases hc : c = '<'
        · have h1 : ((c != '<') || (rest.head? == some '>')
              || !(rest.contains '>')) = true := by
            have h2 := hn
            simp only [noTagB, Bool.and_eq_true] at h2
            exact h2.1
          rw [hc] at h1
          simp only [bne_self_eq_false, Bool.false_or, Bool.or_eq_true] at h1
          have hcond : (rest.head? == some '>') = true
              ∨ ('>' : Char) ∉ rest := by
            rcases h1 with h | h
            · exact Or.inl h
            · refine Or.inr (fun hm => ?_)
              rw [(contains_gt_iff rest).2 hm] at h
              simp at h
          have hnone : dropTag rest = none := by
            rcases hcond with h | h
            · match rest with
              | [] => rfl
              | d :: r =>
                have hd : d = '>' := by simpa using h
                simp [dropTag, hd]
            · exact dropTag_none_of_no_gt h
          rw [removeTags_cons_nomatch (by simp [hnone]),
              ih rest (by omega) htail]
        · rw [removeTags_cons_nomatch (fun hh => hc hh.1),
              ih rest (by omega) htail]
  exact fun s => main s.length s (le_refl _)

theorem noTagB_removeTags : ∀ s : List Char, noTagB (removeTags s) = true := by
  have main : ∀ n : Nat, ∀ s : List Char, s.length ≤ n →
      noTagB (removeTags s) = true := by
    intro n
    induction n using Nat.strong_induction_on with
    | _ n ih =>
      intro s hs
      match s with
      | [] => rfl
      | c :: rest =>
        simp only [List.length_cons] at hs
        by_cases hc : c = '<'
        · cases hd : dropTag rest with
          | some rest2 =>
            rw [removeTags_cons_match hc hd]
            have hl := dropTag_length hd
            exact ih rest2.length (by omega) rest2 (le_refl _)
          | none =>
            rw [removeTags_cons_nomatch (by simp [hd])]
            have htail : noTagB (removeTags rest) = true :=
              ih rest.length (by omega) rest (le_refl _)
            simp only [noTagB, Bool.and_eq_true]
            refine ⟨?_, htail⟩
            match rest, hd with
            | [], _ => simp [removeTags_nil]
            | d :: r, hd =>
              by_cases hdgt : d = '>'
              · have : removeTags (d :: r) = d :: removeTags r :=
                  removeTags_cons_nomatch (fun hh => by
                    rw [hdgt] at hh; cases hh.1)
                rw [this, hdgt]
                simp
              · have hskip : skipToGt r = none := by
                  simp only [dropTag, if_neg hdgt] at hd
                  exact hd
                have hnog : ('>' : Char) ∉ d :: r := by
                  intro hm
                  rcases List.mem_cons.1 hm with h' | h'
                  · exact hdgt h'.symm
                  · exact skipToGt_none_no_gt hskip h'
                have hnogr : ('>' : Char) ∉ removeTags (d :: r) :=
                  fun hm => hnog (mem_removeTags hm)
                simp [hnogr]
        · rw [removeTags_cons_nomatch (fun hh => hc hh.1)]
          have htail := ih rest.length (by omega) rest (le_refl _)
          simp [noTagB, hc, htail]
  exact fun s => main s.length s (le_refl _)

theorem mem_collapseWs :
    ∀ (s : List Char) (c : Char), c ∈ collapseWs s → c = ' ' ∨ c ∈ s
  | [], c, h => by simp [collapseWs] at h
  | [a], c, h => by
    simp only [collapseWs] at h
    by_cases hw : isWs a
    · rw [if_pos hw] at h
      simp at h
      exact Or.inl h
    · rw [if_neg hw] at h
      simp at h
      exact Or.inr (by simp [h])
  | a :: b :: rest, c, h => by
    simp only [collapseWs] at h
    by_cases hw : (isWs a && isWs b) = true
    · rw [if_pos hw] at h
      rcases mem_collapseWs (b :: rest) c h with h' | h'
      · exact Or.inl h'
      · exact Or.inr (List.mem_cons_of_mem _ h')
    · rw [if_neg hw] at h
      rcases List.mem_cons.1 h with h' | h'
      · by_cases hwa : isWs a
        · rw [if_pos hwa] at h'
          exact Or.inl h'
        · rw [if_neg hwa] at h'
          exact Or.inr (h' ▸ List.mem_cons_self _ _)
      · rcases mem_collapseWs (b :: rest) c h' with h'' | h''
        · exact Or.inl h''
        · exact Or.inr (List.mem_cons_of_mem _ h'')

theorem collapseWs_head_not_ws {b : Char} (rest : List Char)
    (hb : isWs b = false) : (collapseWs (b :: rest)).head? = some b := by
  match rest with
  | [] => simp [collapseWs, hb]
  | r :: rs => simp [collapseWs, hb]

theorem noTagB_collapseWs :
    ∀ s : List Char, noTagB s = true → noTagB (collapseWs s) = true
  | [], _ => rfl
  | [a], _ => by
    simp only [collapseWs]
    by_cases hw : isWs a
    · rw [if_pos hw]
      decide
    · rw [if_neg hw]
      simp [noTagB]
  | a :: b :: rest, hn => by
    have htail : noTagB (b :: rest) = true := noTagB_tail hn
    have hrec := noTagB_collapseWs (b :: rest) htail
    simp only [collapseWs]
    by_cases hw : (isWs a && isWs b) = true
    · rw [if_pos hw]
      exact hrec
    · rw [if_neg hw]
      by_cases hwa : isWs a
      · rw [if_pos hwa]
        simp [noTagB, hrec]
      · rw [if_neg hwa]
        by_cases hca : a = '<'
        · have h1 : ((a != '<') || ((b :: rest).head? == some '>')
              || !((b :: rest).contains '>')) = true := by
            have h2 := hn
            simp only [noTagB, Bool.and_eq_true] at h2
            exact h2.1
          rw [hca] at h1
          simp only [bne_self_eq_false, Bool.false_or, Bool.or_eq_true] at h1
          rcases h1 with h | h
          · have hb : b = '>' := by simpa using h
            have hwb : isWs b = false := by rw [hb]; decide
            have hh := collapseWs_head_not_ws rest hwb
            simp only [noTagB, Bool.and_eq_true]
            refine ⟨?_, hrec⟩
            rw [hh, hb]
            simp
          · have hnm : ('>' : Char) ∉ b :: rest := by
              intro hm
              rw [(contains_gt_iff _).2 hm] at h
              simp at h
            have hnm2 : ('>' : Char) ∉ collapseWs (b :: rest) := by
              intro hm
              rcases mem_collapseWs _ _ hm with h' | h'
              · exact absurd h' (by decide)
              · exact hnm h'
            simp only [noTagB, Bool.and_eq_true]
            refine ⟨?_, hrec⟩
            simp [hnm2]
        · simp [noTagB, hca, hrec]

/-- The string is in collapsed form: every whitespace character is a plain
space, and no two adjacent characters are both whitespace. -/
def collapsedB : List Char → Bool
  | [] => true
  | [c] => !isWs c || (c == ' ')
  | a :: b :: rest =>
    (!isWs a || (a == ' ')) && !(isWs a && isWs b) && collapsedB (b :: rest)

theorem collapsedB_tail {c : Char} {l : List Char}
    (h : collapsedB (c :: l) = true) : collapsedB l = true := by
  match l with
  | [] => rfl
  | x :: xs =>
    simp only [collapsedB, Bool.and_eq_true] at h
    exact h.2

theorem collapsedB_collapseWs : ∀ s : List Char, collapsedB (collapseWs s) = true
  | [] => rfl
  | [a] => by
    simp only [collapseWs]
    by_cases hw : isWs a
    · rw [if_pos hw]
      decide
    · rw [if_neg hw]
      simp [collapsedB, hw]
  | a :: b :: rest => by
    have hrec := collapsedB_collapseWs (b :: rest)
    simp only [collapseWs]
    by_cases hw : (isWs a && isWs b) = true
    · rw [if_pos hw]
      exact hrec
    · rw [if_neg hw]
      have hab : isWs a = false ∨ isWs b = false := by
        cases ha : isWs a
        · exact Or.inl rfl
        · cases hb : isWs b
          · exact Or.inr rfl
          · exact absurd (by simp [ha, hb] : (isWs a && isWs b) = true) hw
      cases hx : collapseWs (b :: rest) with
      | nil =>
        by_cases hwa : isWs a
        · rw [if_pos hwa]
          decide
        · rw [if_neg hwa]
          simp [collapsedB, hwa]
      | cons x xs =>
        have hconj1 : (!isWs (if isWs a then ' ' else a)
            || ((if isWs a then ' ' else a) == ' ')) = true := by
          by_cases hwa : isWs a
          · rw [if_pos hwa]
            decide
          · rw [if_neg hwa]
            simp [hwa]
        have hconj2 : (!(isWs (if isWs a then ' ' else a) && isWs x)) = true := by
          by_cases hwa : isWs a
          · have hwb : isWs b = false := by
              rcases hab with h | h
              · rw [hwa] at h
                cases h
              · exact h
            have hh := collapseWs_head_not_ws rest hwb
            rw [hx] at hh
            simp only [List.head?_cons, Option.some.injEq] at hh
            rw [if_pos hwa, hh, hwb]
            decide
          · rw [if_neg hwa]
            simp [hwa]
        simp only [collapsedB, Bool.and_eq_true]
        rw [hx] at hrec
        exact ⟨⟨by rw [hconj1], by rw [hconj2]⟩, hrec⟩

theorem collapseWs_of_collapsedB :
    ∀ s : List Char, collapsedB s = true → collapseWs s = s
  | [], _ => rfl
  | [c], h => by
    simp only [collapseWs]
    by_cases hw : isWs c
    · rw [if_pos hw]
      simp only [collapsedB, hw, Bool.not_true, Bool.false_or, beq_iff_eq] at h
      rw [h]
    · rw [if_neg hw]
  | a :: b :: rest, h => by
    simp only [collapsedB, Bool.and_eq_true] at h
    obtain ⟨⟨h1, h2⟩, h3⟩ := h
    have hrec := collapseWs_of_collapsedB (b :: rest) h3
    have hw : (isWs a && isWs b) = false := by
      rw [← Bool.not_eq_true]
      intro hcon
      rw [hcon] at h2
      cases h2
    simp only [collapseWs, hw, Bool.false_eq_true, if_false]
    rw [hrec]
    by_cases hwa : isWs a
    · have ha : a = ' ' := by
        rw [hwa] at h1
        simpa using h1
      rw [if_pos hwa, ha]
    · rw [if_neg hwa]

theorem noTagB_append_left : ∀ (u w : List Char), noTagB (u ++ w) = true →
    ('>' : Char) ∉ w → noTagB u = true
  | [], _, _, _ => rfl
  | c :: u, w, h, hw => by
    simp only [List.cons_append, noTagB, Bool.and_eq_true] at h ⊢
    obtain ⟨h1, h2⟩ := h
    refine ⟨?_, noTagB_append_left u w h2 hw⟩
    by_cases hc : c = '<'
    · rw [hc] at h1 ⊢
      simp only [List.append_eq] at h1
      simp only [bne_self_eq_false, Bool.false_or, Bool.or_eq_true] at h1 ⊢
      rcases h1 with h | h
      · match u with
        | [] => exact Or.inr rfl
        | d :: u' =>
          left
          have hd : d = '>' := by simpa using h
          simp [hd]
      · right
        have hm : ('>' : Char) ∉ u ++ w := by
          intro hm
          rw [(contains_gt_iff _).2 hm] at h
          simp at h
        have hnu : ('>' : Char) ∉ u := fun hh => hm (List.mem_append_left _ hh)
        simp [hnu]
    · simp [hc]

theorem collapsedB_append_left :
    ∀ (u w : List Char), collapsedB (u ++ w) = true → collapsedB u = true
  | [], _, _ => rfl
  | [c], w, h => by
    cases w with
    | nil => simpa using h
    | cons x xs =>
      simp only [List.cons_append, List.nil_append, collapsedB,
        Bool.and_eq_true] at h
      obtain ⟨⟨h1, _⟩, _⟩ := h
      simpa [collapsedB] using h1
  | a :: b :: u, w, h => by
    simp only [List.cons_append, collapsedB, Bool.and_eq_true] at h ⊢
    obtain ⟨⟨h1, h2⟩, h3⟩ := h
    exact ⟨⟨h1, h2⟩, collapsedB_append_left (b :: u) w h3⟩

theorem pred_dropWhile (Q : List Char → Bool)
    (htail : ∀ c l, Q (c :: l) = true → Q l = true) (p : Char → Bool) :
    ∀ l : List Char, Q l = true → Q (l.dropWhile p) = true := by
  intro l
  induction l with
  | nil => intro h; exact h
  | cons c l ih =>
    intro h
    rw [List.dropWhile_cons]
    split
    · exact ih (htail c l h)
    · exact h

theorem rstrip_decomp (p : Char → Bool) (l : List Char) :
    l = (l.reverse.dropWhile p).reverse ++ (l.reverse.takeWhile p).reverse
    ∧ ∀ c ∈ (l.reverse.takeWhile p).reverse, p c = true := by
  constructor
  · have h1 : l.reverse.takeWhile p ++ l.reverse.dropWhile p = l.reverse :=
      List.takeWhile_append_dropWhile p l.reverse
    have h2 : (l.reverse.takeWhile p ++ l.reverse.dropWhile p).reverse =
        l.reverse.reverse := by rw [h1]
    rw [List.reverse_append, List.reverse_reverse] at h2
    exact h2.symm
  · intro c hc
    rw [List.mem_reverse] at hc
    exact List.mem_takeWhile_imp hc

theorem noTagB_stripWs (s : List Char) (h : noTagB s = true) :
    noTagB (stripWs s) = true := by
  have h1 : noTagB (s.dropWhile isWs) = true :=
    pred_dropWhile noTagB (fun c l hh => noTagB_tail hh) isWs s h
  obtain ⟨hdec, hmem⟩ := rstrip_decomp isWs (s.dropWhile isWs)
  have hgt : ('>' : Char)
      ∉ ((s.dropWhile isWs).reverse.takeWhile isWs).reverse := by
    intro hm
    exact absurd (hmem _ hm) (by decide)
  rw [hdec] at h1
  exact noTagB_append_left _ _ h1 hgt

theorem collapsedB_stripWs (s : List Char) (h : collapsedB s = true) :
    collapsedB (stripWs s) = true := by
  have h1 : collapsedB (s.dropWhile isWs) = true :=
    pred_dropWhile collapsedB (fun c l hh => collapsedB_tail hh) isWs s h
  obtain ⟨hdec, -⟩ := rstrip_decomp isWs (s.dropWhile isWs)
  rw [hdec] at h1
  exact collapsedB_append_left _ _ h1

theorem mem_stripWs {c : Char} {s : List Char} (h : c ∈ stripWs s) : c ∈ s := by
  unfold stripWs at h
  rw [List.mem_reverse] at h
  have h2 := (List.dropWhile_sublist isWs).subset h
  rw [List.mem_reverse] at h2
  exact (List.dropWhile_sublist isWs).subset h2

theorem dropWhile_idem (p : Char → Bool) :
    ∀ l : List Char, (l.dropWhile p).dropWhile p = l.dropWhile p := by
  intro l
  induction l with
  | nil => rfl
  | cons c l ih =>
    rw [List.dropWhile_cons]
    split
    · exact ih
    · next hp => rw [List.dropWhile_cons_of_neg hp]

theorem stripWs_idem (s : List Char) : stripWs (stripWs s) = stripWs s := by
  have hdwA : (stripWs s).dropWhile isWs = stripWs s := by
    cases hu : stripWs s with
    | nil => rfl
    | cons c v =>
      have hdw : (s.dropWhile isWs).dropWhile isWs = s.dropWhile isWs :=
        dropWhile_idem isWs s
      obtain ⟨hdec, -⟩ := rstrip_decomp isWs (s.dropWhile isWs)
      rw [show ((s.dropWhile isWs).reverse.dropWhile isWs).reverse = stripWs s
        from rfl] at hdec
      rw [hu] at hdec
      have hc : isWs c = false := by
        by_contra hcon
        rw [Bool.not_eq_false] at hcon
        rw [hdec, List.cons_append, List.dropWhile_cons_of_pos hcon] at hdw
        have hlen := congrArg List.length hdw
        rw [List.length_cons] at hlen
        have hle := (List.dropWhile_sublist (l := v ++
          ((s.dropWhile isWs).reverse.takeWhile isWs).reverse) isWs).length_le
        omega
      rw [List.dropWhile_cons_of_neg (by simp [hc])]
  show (((stripWs s).dropWhile isWs).reverse.dropWhile isWs).reverse = stripWs s
  rw [hdwA]
  have h1 : (stripWs s).reverse = (s.dropWhile isWs).reverse.dropWhile isWs := by
    show (((s.dropWhile isWs).reverse.dropWhile isWs).reverse).reverse = _
    rw [List.reverse_reverse]
  rw [h1, dropWhile_idem]
  rfl

/-- C3 counterexample: cleaning is not idempotent, because entity decoding
runs after tag removal: the first pass turns the input into new entity or
markup text that the second pass processes further. -/
theorem C3_counterexample :
    clean_html (clean_html "&amp;lt;") ≠ clean_html "&amp;lt;"
    ∧ clean_html "&amp;lt;" = "&lt;"
    ∧ clean_html (clean_html "&amp;lt;") = "<" := by
  refine ⟨by decide, by decide, by decide⟩

/-- C3 amended: `_clean_html` is idempotent on every input containing no
ampersand; for such inputs entity decoding is the identity and the
remaining passes (tag removal, whitespace collapsing, stripping) are
jointly idempotent. -/
theorem C3_clean_idempotent_no_amp (s : String)
    (h : ('&' : Char) ∉ s.data) :
    clean_html (clean_html s) = clean_html s := by
  have hr : ('&' : Char) ∉ removeTags s.data :=
    fun hc => h (mem_removeTags hc)
  have h1 : unescape (removeTags s.data) = removeTags s.data :=
    unescape_id_of_no_amp hr
  have hcleans : clean_html s =
      ⟨stripWs (collapseWs (removeTags s.data))⟩ := by
    rw [clean_html, h1]
  rw [hcleans]
  have hu_noTag : noTagB (stripWs (collapseWs (removeTags s.data))) = true :=
    noTagB_stripWs _ (noTagB_collapseWs _ (noTagB_removeTags s.data))
  have hu_amp : ('&' : Char) ∉ stripWs (collapseWs (removeTags s.data)) := by
    intro hc
    rcases mem_collapseWs _ _ (mem_stripWs hc) with h3 | h3
    · exact absurd h3 (by decide)
    · exact hr h3
  have e1 : removeTags (stripWs (collapseWs (removeTags s.data))) =
      stripWs (collapseWs (removeTags s.data)) :=
    removeTags_of_noTagB _ hu_noTag
  have e2 : unescape (stripWs (collapseWs (removeTags s.data))) =
      stripWs (collapseWs (removeTags s.data)) :=
    unescape_id_of_no_amp hu_amp
  have hcol : collapsedB (stripWs (collapseWs (removeTags s.data))) = true :=
    collapsedB_stripWs _ (collapsedB_collapseWs _)
  have e3 : collapseWs (stripWs (collapseWs (removeTags s.data))) =
      stripWs (collapseWs (removeTags s.data)) :=
    collapseWs_of_collapsedB _ hcol
  have e4 : stripWs (stripWs (collapseWs (removeTags s.data))) =
      stripWs (collapseWs (removeTags s.data)) :=
    stripWs_idem _
  show (⟨stripWs (collapseWs (unescape (removeTags
      (String.data ⟨stripWs (collapseWs (removeTags s.data))⟩))))⟩ : String)
    = ⟨stripWs (collapseWs (removeTags s.data))⟩
  rw [show String.data ⟨stripWs (collapseWs (removeTags s.data))⟩ =
      stripWs (collapseWs (removeTags s.data)) from rfl, e1, e2, e3, e4]

theorem C3_clean_idempotent_no_amp_witness :
    clean_html (clean_html "a  <b>x</b> c") = clean_html "a  <b>x</b> c" :=
  C3_clean_idempotent_no_amp "a  <b>x</b> c" (by decide)
